import Mathlib

/-!
Verification of the text indexing and scoring engine implemented in
`src/HW2/reddit_crawler_and_calculates.py`.

The engine consists of
* `clean_text` (the Normalizer): strip non-word characters, lowercase,
  split on whitespace, drop stopwords;
* the Vocabulary Ranker: `Counter(...).most_common(k)` over the cleaned
  concatenated corpus text;
* the Positional Indexer `build_inverse_index_with_locations`: posting
  lists `sorted(set(...))` of 1-indexed document ids, restricted to the
  ranker's terms;
* the TF-IDF scorer `calculate_tfidf`: sklearn `TfidfVectorizer` over the
  cleaned per-document contents, then per-query-term lookup that prints a
  score when the term is in the vectorizer vocabulary and a not-found
  marker otherwise.

Strings are modelled as `List Char`.  The character classes of Python's
regular expressions (`\w`, `\s`) and `str.lower` are modelled on a
fragment of Unicode chosen to exhibit their behavior faithfully where it
matters to the engine: a word character is `[A-Za-z0-9_]` together with
U+0130 (LATIN CAPITAL LETTER I WITH DOT ABOVE, a Unicode letter and the
one code point whose `str.lower` image has more than one character);
whitespace is the six ASCII `\s` characters (space, `\t`, `\n`, `\r`,
`\x0b`, `\x0c`); lowercasing maps ASCII `A`-`Z` to `a`-`z` and U+0130 to
the two-character sequence `i` + U+0307 (COMBINING DOT ABOVE, which is
not a word character), exactly as Python does.  This fragment makes the
model break normalization idempotence and token purity at the same
inputs as the real program.  Non-ASCII letters outside the fragment are
treated as strippable; theorems whose truth depends on lowercasing
staying inside the fragment carry an explicit no-U+0130 hypothesis.
The floating-point TF-IDF
weights computed by sklearn are abstracted as a rational-valued weight
matrix parameter `W`; every claim below depends only on the vectorizer's
vocabulary (which is modelled exactly, including sklearn's default
`token_pattern` that keeps only tokens of length at least two) and on
which column is summed, never on the numeric weight values.
-/

namespace InfoRec

/-- Python's `\w` character class on the modelled fragment: ASCII letters,
digits, underscore, and the Unicode letter U+0130 (`İ`); the combining
mark U+0307 introduced by lowercasing `İ` is *not* a word character,
matching Python, where `\w` covers alphanumerics and underscore but not
nonspacing marks.  Expressed on code points so proofs can use `omega`. -/
def isWordChar (c : Char) : Bool :=
  decide ((65 ≤ c.toNat ∧ c.toNat ≤ 90) ∨ (97 ≤ c.toNat ∧ c.toNat ≤ 122) ∨
    (48 ≤ c.toNat ∧ c.toNat ≤ 57) ∨ c.toNat = 95 ∨ c.toNat = 304)

/-- The ASCII whitespace class of Python's `\s` and `str.split()`:
space, `\t`, `\n`, `\x0b`, `\x0c`, `\r` (code points 32, 9, 10, 11, 12,
13). -/
def pyWhitespace (c : Char) : Bool :=
  decide (c.toNat = 32 ∨ c.toNat = 9 ∨ c.toNat = 10 ∨ c.toNat = 11 ∨
    c.toNat = 12 ∨ c.toNat = 13)

/-- Characters kept by `re.sub(r"[^\w\s]", "", text)`: word characters and
whitespace. -/
def keepChar (c : Char) : Bool := isWordChar c || pyWhitespace c

/-- `str.lower` of one character, as the character sequence it contributes:
ASCII `A`-`Z` lower to `a`-`z` (via `Char.toLower`), and U+0130 (`İ`) — the
single code point whose Python lowercase is longer than one character —
lowers to `i` followed by U+0307 (COMBINING DOT ABOVE). -/
def pyLowerChar (c : Char) : List Char :=
  if c.toNat = 304 then [Char.ofNat 105, Char.ofNat 775] else [Char.toLower c]

/-- Whether a list of characters is empty or starts with a separator; used
to phrase `splitRuns` by structural recursion. -/
def headSep (sep : Char → Bool) : List Char → Bool
  | [] => true
  | d :: _ => sep d

/-- Split a character list into the maximal runs of non-separator
characters, discarding separators: the semantics of Python's
`str.split()` (with `sep = isWhitespace`) and of sklearn's `\w\w+`-style
token scanning (with `sep = not word char`), before any length filter. -/
def splitRuns (sep : Char → Bool) : List Char → List (List Char)
  | [] => []
  | c :: cs =>
    if sep c then splitRuns sep cs
    else if headSep sep cs then [c] :: splitRuns sep cs
    else (c :: (splitRuns sep cs).headD []) :: (splitRuns sep cs).tail

/-- Join token lists with single spaces: Python's `" ".join(words)`. -/
def joinSpace : List (List Char) → List Char
  | [] => []
  | [w] => w
  | w :: ws => w ++ ' ' :: joinSpace ws

/-- The stopword set `STOPWORDS` of the source, in source order.  The
source stores it as a Python `set` used only for membership tests, so a
list with `∈` is a faithful model. -/
def STOPWORDS : List (List Char) :=
  [("and").data, ("or").data, ("the").data, ("is").data, ("in").data,
   ("to").data, ("a").data, ("of").data, ("on").data, ("for").data,
   ("with").data, ("it").data, ("as").data, ("at").data, ("this").data,
   ("that").data, ("an").data, ("be").data, ("are").data, ("by").data,
   ("was").data, ("were").data, ("from").data, ("has").data, ("have").data,
   ("had").data, ("but").data, ("not").data, ("you").data, ("we").data,
   ("they").data, ("he").data, ("she").data, ("i").data, ("me").data,
   ("my").data]

/-- Step (1) of `clean_text`: `re.sub(r"[^\w\s]", "", text)`. -/
def stripped (s : List Char) : List Char := s.filter keepChar

/-- Step (2) of `clean_text`: `text.lower()` — concatenation of the
per-character lowercase images (lowercasing is not length-preserving:
`İ` contributes two characters). -/
def lowered (s : List Char) : List Char := s.flatMap pyLowerChar

/-- Step (3) of `clean_text`: `text.split()`. -/
def preTokens (s : List Char) : List (List Char) :=
  splitRuns pyWhitespace (lowered (stripped s))

/-- Step (4) of `clean_text`: drop the stopwords. -/
def cleanWords (s : List Char) : List (List Char) :=
  (preTokens s).filter (fun w => decide (w ∉ STOPWORDS))

/-- `clean_text` of the source: strip non-word characters, lowercase,
split on whitespace, remove stopwords, rejoin with single spaces. -/
def clean_text (s : List Char) : List Char := joinSpace (cleanWords s)

/-- The token sequence consumers of `clean_text` work with:
`clean_text(text).split()`. -/
def tokens (s : List Char) : List (List Char) :=
  splitRuns pyWhitespace (clean_text s)

/-- A document handed to the engine: the `Title` and `Body` columns of one
row of the fetched batch. -/
structure Document where
  title : List Char
  body : List Char
deriving DecidableEq, Inhabited

/-- The text indexed for one document: `title + " " + body`. -/
def content (d : Document) : List Char := d.title ++ ' ' :: d.body

/-- The cleaned token sequence of one document:
`clean_text(title + " " + body).split()`. -/
def docTokens (d : Document) : List (List Char) := tokens (content d)

/-- First-occurrence deduplication, with an accumulator of already seen
elements; models the key order of a Python dict / `collections.Counter`
(insertion order, i.e. order of first occurrence). -/
def uniqueFirstAux {α : Type} [DecidableEq α] (seen : List α) : List α → List α
  | [] => []
  | a :: l =>
    if a ∈ seen then uniqueFirstAux seen l else a :: uniqueFirstAux (a :: seen) l

/-- The distinct elements of a list in order of first occurrence. -/
def uniqueFirst {α : Type} [DecidableEq α] (l : List α) : List α :=
  uniqueFirstAux [] l

/-- The `Counter` of the token stream as an association list in key
insertion order: each distinct term paired with its number of occurrences. -/
def entriesOf (s : List (List Char)) : List (List Char × Nat) :=
  (uniqueFirst s).map (fun t => (t, s.count t))

/-- Stable descending insertion (by frequency): the inserted element goes
before the first element whose count is not larger, so an element earlier
in the original list stays before later elements of equal count. -/
def insertDesc (x : List Char × Nat) :
    List (List Char × Nat) → List (List Char × Nat)
  | [] => [x]
  | y :: ys => if x.2 < y.2 then y :: insertDesc x ys else x :: y :: ys

/-- Stable sort by descending frequency, the ordering contract of
`heapq.nlargest` / `sorted(..., reverse=True)` used by
`Counter.most_common`. -/
def sortDesc : List (List Char × Nat) → List (List Char × Nat)
  | [] => []
  | x :: xs => insertDesc x (sortDesc xs)

/-- `Counter(stream).most_common(k)`: the `k` most frequent distinct terms
of the stream with their counts, by descending count, ties broken by first
occurrence in the stream. -/
def mostCommon (k : Nat) (s : List (List Char)) : List (List Char × Nat) :=
  (sortDesc (entriesOf s)).take k

/-- The occurrence list the source's `inverted_index[word]` accumulates:
one entry `post_index + 1` per occurrence of the word, documents processed
in order, starting from the given 1-based offset. -/
def occListFrom (t : List Char) : Nat → List Document → List Nat
  | _, [] => []
  | i, d :: ds =>
    List.replicate ((docTokens d).count t) (i + 1) ++ occListFrom t (i + 1) ds

/-- The full occurrence list of a term over a corpus (ids are 1-indexed). -/
def occList (docs : List Document) (t : List Char) : List Nat :=
  occListFrom t 0 docs

/-- Ascending insertion for `sorted(...)`. -/
def insertAsc (x : Nat) : List Nat → List Nat
  | [] => [x]
  | y :: ys => if x ≤ y then x :: y :: ys else y :: insertAsc x ys

/-- Ascending insertion sort, the extensional behavior of Python's
`sorted` on a list of naturals. -/
def sortAsc : List Nat → List Nat
  | [] => []
  | x :: xs => insertAsc x (sortAsc xs)

/-- `sorted(set(lst))` of the source: deduplicate, then sort ascending. -/
def sortedSet (l : List Nat) : List Nat := sortAsc (uniqueFirst l)

/-- The posting list the source exposes for a word:
`sorted(set(inverted_index[word]))`. -/
def postingList (docs : List Document) (t : List Char) : List Nat :=
  sortedSet (occList docs t)

/-- The key set of the source's `inverted_index`: every token occurring in
some document. -/
def allWords (docs : List Document) : List (List Char) :=
  (docs.map docTokens).flatten

/-- `all_text` of the source: `" ".join(Title + " " + Body per row)`. -/
def corpusText (docs : List Document) : List Char :=
  joinSpace (docs.map content)

/-- The concatenated corpus token stream the ranker counts:
`clean_text(all_text).split()`. -/
def corpusTokens (docs : List Document) : List (List Char) :=
  tokens (corpusText docs)

/-- The exposed inverted index of
`build_inverse_index_with_locations` with top-`k` restriction: for each of
the `k` most common corpus terms (in that order), if the term is a key of
the occurrence index, its deduplicated ascending posting list. -/
def buildIndex (k : Nat) (docs : List Document) :
    List (List Char × List Nat) :=
  (mostCommon k (corpusTokens docs)).filterMap
    (fun e =>
      if e.1 ∈ allWords docs then some (e.1, postingList docs e.1) else none)

/-- Reference form used to state posting-list exactness: the 1-indexed ids
of the documents whose cleaned text contains the term, in ascending order. -/
def docsContaining (docs : List Document) (t : List Char) : List Nat :=
  ((List.range docs.length).filter
    (fun i => decide (t ∈ docTokens (docs.getD i default)))).map (· + 1)

/-- One token of sklearn's `TfidfVectorizer` default analyzer: lowercase,
then scan maximal word-character runs and keep those of length at least 2
(the default `token_pattern` is `(?u)\b\w\w+\b`). -/
def vecTokenize (s : List Char) : List (List Char) :=
  (splitRuns (fun c => !isWordChar c) (lowered s)).filter
    (fun w => decide (2 ≤ w.length))

/-- The vectorizer vocabulary of `calculate_tfidf`: the distinct tokens of
the cleaned per-document contents under the vectorizer's own analyzer.
sklearn stores it sorted alphabetically; the source consults it only
through membership (`term in terms`) and per-term column lookup, so the
enumeration order is irrelevant and first-occurrence order is used here. -/
def vocabOf (docs : List Document) : List (List Char) :=
  uniqueFirst ((docs.map (fun d => vecTokenize (clean_text (content d)))).flatten)

/-- Outcome of scoring one query term: a numeric score line, or the
`"{term}: Not found in the results."` line. -/
inductive QueryResult where
  | found : ℚ → QueryResult
  | notFound : QueryResult
deriving DecidableEq

/-- Column sum of an abstract document-term weight matrix over all `n`
document rows: `tfidf_matrix[:, term_index].toarray().sum()`. -/
def colSum (W : Nat → List Char → ℚ) (n : Nat) (t : List Char) : ℚ :=
  ((List.range n).map (fun i => W i t)).sum

/-- The per-term results of the query loop of `calculate_tfidf`: each
cleaned query term paired with its summed column weight when the term is
in the vectorizer vocabulary, and `notFound` otherwise. -/
def scoreResults (W : Nat → List Char → ℚ) (docs : List Document)
    (query : List Char) : List (List Char × QueryResult) :=
  (tokens query).map
    (fun t =>
      (t, if t ∈ vocabOf docs then QueryResult.found (colSum W docs.length t)
          else QueryResult.notFound))

/-- `calculate_tfidf` on an in-memory corpus: sklearn's
`fit_transform` raises `ValueError: empty vocabulary ...` when the
vectorizer vocabulary is empty (in particular on an empty corpus), which
the source re-raises; otherwise every cleaned query term is scored. -/
def calculate_tfidf (W : Nat → List Char → ℚ) (docs : List Document)
    (query : List Char) :
    Except (List Char) (List (List Char × QueryResult)) :=
  if vocabOf docs = [] then Except.error (("empty vocabulary").data)
  else Except.ok (scoreResults W docs query)

/-- Whether an `Except` result is a success. -/
def resultOk {ε α : Type} : Except ε α → Bool
  | Except.ok _ => true
  | Except.error _ => false

/-! ### Character-level lemmas -/

theorem char_toNat_ofNat {n : Nat} (h : n < 0xd800) : (Char.ofNat n).toNat = n := by
  simp only [Char.ofNat, Nat.isValidChar]
  rw [dif_pos (Or.inl h)]
  rfl

theorem isWordChar_iff (c : Char) :
    isWordChar c = true ↔
      (65 ≤ c.toNat ∧ c.toNat ≤ 90) ∨ (97 ≤ c.toNat ∧ c.toNat ≤ 122) ∨
        (48 ≤ c.toNat ∧ c.toNat ≤ 57) ∨ c.toNat = 95 ∨ c.toNat = 304 := by
  simp [isWordChar]

theorem pyWhitespace_iff (c : Char) :
    pyWhitespace c = true ↔
      c.toNat = 32 ∨ c.toNat = 9 ∨ c.toNat = 10 ∨ c.toNat = 11 ∨
        c.toNat = 12 ∨ c.toNat = 13 := by
  simp [pyWhitespace]

theorem toNat_toLower (c : Char) :
    (Char.toLower c).toNat =
      if 65 ≤ c.toNat ∧ c.toNat ≤ 90 then c.toNat + 32 else c.toNat := by
  unfold Char.toLower
  by_cases h : 65 ≤ c.toNat ∧ c.toNat ≤ 90
  · rw [if_pos h, if_pos ⟨h.1, h.2⟩]
    exact char_toNat_ofNat (by omega)
  · rw [if_neg h, if_neg (fun hge => h ⟨hge.1, hge.2⟩)]

theorem toLower_eq_self {c : Char} (h : ¬(65 ≤ c.toNat ∧ c.toNat ≤ 90)) :
    Char.toLower c = c := by
  unfold Char.toLower
  rw [if_neg (fun hge => h ⟨hge.1, hge.2⟩)]

theorem toLower_toLower (c : Char) :
    Char.toLower (Char.toLower c) = Char.toLower c := by
  apply toLower_eq_self
  rw [toNat_toLower c]
  by_cases h : 65 ≤ c.toNat ∧ c.toNat ≤ 90
  · rw [if_pos h]; omega
  · rw [if_neg h]; exact h

theorem isWordChar_toLower {c : Char} (h : isWordChar c = true) :
    isWordChar (Char.toLower c) = true := by
  rw [isWordChar_iff] at h ⊢
  rw [toNat_toLower c]
  by_cases hu : 65 ≤ c.toNat ∧ c.toNat ≤ 90
  · rw [if_pos hu]; omega
  · rw [if_neg hu]; exact h

theorem toLower_not_upper (c : Char) :
    ¬(65 ≤ (Char.toLower c).toNat ∧ (Char.toLower c).toNat ≤ 90) := by
  rw [toNat_toLower c]
  by_cases h : 65 ≤ c.toNat ∧ c.toNat ≤ 90
  · rw [if_pos h]; omega
  · rw [if_neg h]; exact h

theorem toLower_of_whitespace {c : Char} (h : pyWhitespace c = true) :
    Char.toLower c = c := by
  rw [pyWhitespace_iff] at h
  exact toLower_eq_self (by omega)

theorem word_not_whitespace {c : Char} (h : isWordChar c = true) :
    pyWhitespace c = false := by
  cases hw : pyWhitespace c with
  | false => rfl
  | true =>
    rw [pyWhitespace_iff] at hw
    rw [isWordChar_iff] at h
    omega

theorem toLower_toNat_ne {c : Char} (h : c.toNat ≠ 304) :
    (Char.toLower c).toNat ≠ 304 := by
  rw [toNat_toLower c]
  by_cases hu : 65 ≤ c.toNat ∧ c.toNat ≤ 90
  · rw [if_pos hu]; omega
  · rw [if_neg hu]; exact h

theorem pyLowerChar_dotted {c : Char} (h : c.toNat = 304) :
    pyLowerChar c = [Char.ofNat 105, Char.ofNat 775] := by
  rw [pyLowerChar, if_pos h]

theorem pyLowerChar_plain {c : Char} (h : c.toNat ≠ 304) :
    pyLowerChar c = [Char.toLower c] := by
  rw [pyLowerChar, if_neg h]

theorem pyLowerChar_not_upper {c x : Char} (hx : x ∈ pyLowerChar c) :
    ¬(65 ≤ x.toNat ∧ x.toNat ≤ 90) := by
  rw [pyLowerChar] at hx
  by_cases h : c.toNat = 304
  · rw [if_pos h] at hx
    rcases List.mem_cons.mp hx with h1 | h1
    · subst h1; decide
    · rw [List.mem_singleton] at h1
      subst h1; decide
  · rw [if_neg h, List.mem_singleton] at hx
    subst hx
    exact toLower_not_upper c

theorem flatMap_id_of {α : Type} (f : α → List α) :
    ∀ l : List α, (∀ a ∈ l, f a = [a]) → l.flatMap f = l := by
  intro l
  induction l with
  | nil => intro; rfl
  | cons a l ih =>
    intro h
    rw [List.flatMap_cons, h a (by simp),
      ih (fun x hx => h x (List.mem_cons_of_mem _ hx))]
    rfl

theorem lowered_eq_map {l : List Char} (h : ∀ c ∈ l, c.toNat ≠ 304) :
    lowered l = l.map Char.toLower := by
  rw [lowered]
  induction l with
  | nil => rfl
  | cons a l ih =>
    rw [List.flatMap_cons, pyLowerChar_plain (h a (by simp)), List.map_cons,
      ih (fun x hx => h x (List.mem_cons_of_mem _ hx))]
    rfl

/-! ### `splitRuns` and `joinSpace` lemmas -/

theorem headSep_false {sep : Char → Bool} {cs : List Char}
    (h : headSep sep cs = false) : ∃ d ds, cs = d :: ds ∧ sep d = false := by
  match cs with
  | [] => simp [headSep] at h
  | d :: ds => exact ⟨d, ds, rfl, h⟩

theorem splitRuns_ne_nil (sep : Char → Bool) (c : Char) (cs : List Char)
    (hc : sep c = false) : splitRuns sep (c :: cs) ≠ [] := by
  rw [splitRuns, if_neg (by simp [hc])]
  by_cases hd : headSep sep cs
  · rw [if_pos hd]; simp
  · rw [if_neg hd]; simp

theorem splitRuns_props (sep : Char → Bool) :
    ∀ s : List Char, ∀ w ∈ splitRuns sep s, w ≠ [] ∧ ∀ c ∈ w, sep c = false ∧ c ∈ s := by
  intro s
  induction s with
  | nil => intro w hw; simp [splitRuns] at hw
  | cons c cs ih =>
    intro w hw
    rw [splitRuns] at hw
    by_cases hc : sep c
    · rw [if_pos hc] at hw
      obtain ⟨hne, hall⟩ := ih w hw
      exact ⟨hne, fun x hx => ⟨(hall x hx).1, List.mem_cons_of_mem _ (hall x hx).2⟩⟩
    · rw [if_neg hc] at hw
      by_cases hd : headSep sep cs
      · rw [if_pos hd] at hw
        rcases List.mem_cons.mp hw with h | h
        · subst h
          refine ⟨by simp, ?_⟩
          intro x hx
          simp only [List.mem_singleton] at hx
          subst hx
          exact ⟨by simpa using hc, by simp⟩
        · obtain ⟨hne, hall⟩ := ih _ h
          exact ⟨hne, fun x hx => ⟨(hall x hx).1, List.mem_cons_of_mem _ (hall x hx).2⟩⟩
      · rw [if_neg hd] at hw
        match hm : splitRuns sep cs, hw with
        | [], hw =>
          simp at hw
          subst hw
          refine ⟨by simp, ?_⟩
          intro x hx
          simp only [List.mem_singleton] at hx
          subst hx
          exact ⟨by simpa using hc, by simp⟩
        | w0 :: ws, hw =>
          simp only [List.headD_cons, List.tail_cons] at hw
          rcases List.mem_cons.mp hw with h | h
          · subst h
            have h0 := ih w0 (by rw [hm]; simp)
            refine ⟨by simp, ?_⟩
            intro x hx
            rcases List.mem_cons.mp hx with h | h
            · subst h; exact ⟨by simpa using hc, by simp⟩
            · exact ⟨(h0.2 x h).1, List.mem_cons_of_mem _ (h0.2 x h).2⟩
          · have h0 := ih w (by rw [hm]; exact List.mem_cons_of_mem _ h)
            exact ⟨h0.1, fun x hx => ⟨(h0.2 x hx).1, List.mem_cons_of_mem _ (h0.2 x hx).2⟩⟩

theorem splitRuns_append_word (sep : Char → Bool) (hsp : sep ' ' = true)
    (rest : List Char) :
    ∀ w : List Char, w ≠ [] → (∀ c ∈ w, sep c = false) →
      splitRuns sep (w ++ ' ' :: rest) = w :: splitRuns sep rest := by
  intro w
  induction w with
  | nil => intro h; exact absurd rfl h
  | cons x xs ih =>
    intro _ hall
    have hx : sep x = false := hall x (by simp)
    match xs with
    | [] =>
      simp only [List.nil_append, List.cons_append]
      rw [splitRuns, if_neg (by simp [hx]), if_pos (by simp [headSep, hsp])]
      rw [splitRuns, if_pos hsp]
    | y :: ys =>
      have hy : sep y = false := hall y (by simp)
      have hih := ih (by simp) (fun c hc => hall c (List.mem_cons_of_mem _ hc))
      simp only [List.cons_append] at hih ⊢
      rw [splitRuns, if_neg (by simp [hx]), if_neg (by simp [headSep, hy])]
      rw [hih]
      simp

theorem splitRuns_single_word (sep : Char → Bool) :
    ∀ w : List Char, w ≠ [] → (∀ c ∈ w, sep c = false) → splitRuns sep w = [w] := by
  intro w
  induction w with
  | nil => intro h; exact absurd rfl h
  | cons x xs ih =>
    intro _ hall
    have hx : sep x = false := hall x (by simp)
    match xs with
    | [] => rw [splitRuns, if_neg (by simp [hx]), if_pos (by simp [headSep])]; rfl
    | y :: ys =>
      have hy : sep y = false := hall y (by simp)
      have hih := ih (by simp) (fun c hc => hall c (List.mem_cons_of_mem _ hc))
      rw [splitRuns, if_neg (by simp [hx]), if_neg (by simp [headSep, hy])]
      rw [hih]
      simp

theorem splitRuns_joinSpace (sep : Char → Bool) (hsp : sep ' ' = true) :
    ∀ ws : List (List Char), (∀ w ∈ ws, w ≠ [] ∧ ∀ c ∈ w, sep c = false) →
      splitRuns sep (joinSpace ws) = ws := by
  intro ws
  induction ws with
  | nil => intro; rfl
  | cons w ws ih =>
    intro hall
    match ws with
    | [] =>
      show splitRuns sep w = [w]
      exact splitRuns_single_word sep w (hall w (by simp)).1 (hall w (by simp)).2
    | w2 :: ws2 =>
      show splitRuns sep (w ++ ' ' :: joinSpace (w2 :: ws2)) = _
      rw [splitRuns_append_word sep hsp _ w (hall w (by simp)).1 (hall w (by simp)).2]
      rw [ih (fun u hu => hall u (List.mem_cons_of_mem _ hu))]

theorem splitRuns_length (sep : Char → Bool) :
    ∀ s : List Char,
      (splitRuns sep s).length ≤ (s.filter (fun c => !(sep c))).length := by
  intro s
  induction s with
  | nil => simp [splitRuns]
  | cons c cs ih =>
    rw [splitRuns]
    by_cases hc : sep c
    · rw [if_pos hc, List.filter_cons_of_neg (by simp [hc])]
      exact ih
    · rw [if_neg hc, List.filter_cons_of_pos (by simp [hc])]
      by_cases hd : headSep sep cs
      · rw [if_pos hd]
        simpa using ih
      · rw [if_neg hd]
        obtain ⟨d, ds, hcs, hdne⟩ := @headSep_false sep cs (Bool.eq_false_iff.mpr hd)
        have hne : splitRuns sep cs ≠ [] := by
          rw [hcs]; exact splitRuns_ne_nil sep d ds hdne
        have hlen : (splitRuns sep cs).tail.length + 1 = (splitRuns sep cs).length := by
          match hsr : splitRuns sep cs, hne with
          | w0 :: ws, _ => simp
        simp only [List.length_cons]
        omega

theorem headSep_cons (sep : Char → Bool) (d : Char) (t : List Char) :
    headSep sep (d :: t) = sep d := rfl

theorem length_splitRuns_cons_le (sep : Char → Bool) (x : Char) (t : List Char) :
    (splitRuns sep (x :: t)).length ≤ (splitRuns sep t).length + 1 := by
  rw [splitRuns]
  by_cases hx : sep x
  · rw [if_pos hx]; omega
  · rw [if_neg hx]
    by_cases hd : headSep sep t
    · rw [if_pos hd]; simp
    · rw [if_neg hd]
      obtain ⟨d, ds, ht, hdne⟩ := @headSep_false sep t (Bool.eq_false_iff.mpr hd)
      have hne : splitRuns sep t ≠ [] := ht ▸ splitRuns_ne_nil sep d ds hdne
      simp only [List.length_cons]
      match hsr : splitRuns sep t, hne with
      | w :: ws, _ => simp

theorem length_splitRuns_cons_sep (sep : Char → Bool) (x : Char) (t : List Char)
    (hx : sep x = true) :
    (splitRuns sep (x :: t)).length = (splitRuns sep t).length := by
  rw [splitRuns, if_pos hx]

theorem length_splitRuns_cons_merge (sep : Char → Bool) (x : Char) (t : List Char)
    (hx : sep x = false) (hd : headSep sep t = false) :
    (splitRuns sep (x :: t)).length = (splitRuns sep t).length := by
  rw [splitRuns, if_neg (by simp [hx]), if_neg (by simp [hd])]
  obtain ⟨d, ds, ht, hdne⟩ := @headSep_false sep t hd
  have hne : splitRuns sep t ≠ [] := ht ▸ splitRuns_ne_nil sep d ds hdne
  match hsr : splitRuns sep t, hne with
  | w :: ws, _ => simp

theorem mem_joinSpace {c : Char} :
    ∀ ws : List (List Char), c ∈ joinSpace ws → c = ' ' ∨ ∃ w ∈ ws, c ∈ w := by
  intro ws
  induction ws with
  | nil => intro h; simp [joinSpace] at h
  | cons w ws ih =>
    intro h
    match ws with
    | [] => exact Or.inr ⟨w, by simp, h⟩
    | w2 :: ws2 =>
      have h2 : c ∈ w ++ ' ' :: joinSpace (w2 :: ws2) := h
      rcases List.mem_append.mp h2 with h3 | h3
      · exact Or.inr ⟨w, by simp, h3⟩
      · rcases List.mem_cons.mp h3 with h4 | h4
        · exact Or.inl h4
        · rcases ih h4 with h5 | ⟨u, hu, hcu⟩
          · exact Or.inl h5
          · exact Or.inr ⟨u, List.mem_cons_of_mem _ hu, hcu⟩

/-! ### Properties of the cleaned token sequence -/

theorem map_self {α : Type} (f : α → α) :
    ∀ l : List α, (∀ a ∈ l, f a = a) → l.map f = l := by
  intro l
  induction l with
  | nil => intro; rfl
  | cons a l ih =>
    intro h
    rw [List.map_cons, h a (by simp), ih (fun x hx => h x (List.mem_cons_of_mem _ hx))]

theorem cleanWords_basic (s : List Char) :
    ∀ w ∈ cleanWords s, w ≠ [] ∧ w ∉ STOPWORDS ∧
      ∀ c ∈ w, pyWhitespace c = false := by
  intro w hw
  rw [cleanWords, List.mem_filter] at hw
  obtain ⟨hpre, hstop⟩ := hw
  rw [decide_eq_true_eq] at hstop
  obtain ⟨hne, hchars⟩ := splitRuns_props pyWhitespace _ w hpre
  exact ⟨hne, hstop, fun c hc => (hchars c hc).1⟩

theorem cleanWords_chars (s : List Char) :
    ∀ w ∈ cleanWords s, ∀ c ∈ w, ∃ d ∈ stripped s, c ∈ pyLowerChar d := by
  intro w hw c hc
  rw [cleanWords, List.mem_filter] at hw
  have hmem := ((splitRuns_props pyWhitespace _ w hw.1).2 c hc).2
  rw [lowered] at hmem
  exact List.mem_flatMap.mp hmem

theorem cleanWords_no_upper (s : List Char) :
    ∀ w ∈ cleanWords s, ∀ c ∈ w, ¬(65 ≤ c.toNat ∧ c.toNat ≤ 90) := by
  intro w hw c hc
  obtain ⟨d, _, hcd⟩ := cleanWords_chars s w hw c hc
  exact pyLowerChar_not_upper hcd

theorem cleanWords_pure (s : List Char) (h : ∀ c ∈ s, c.toNat ≠ 304) :
    ∀ w ∈ cleanWords s, ∀ c ∈ w,
      isWordChar c = true ∧ Char.toLower c = c ∧ c.toNat ≠ 304 := by
  intro w hw c hc
  have hws : pyWhitespace c = false := (cleanWords_basic s w hw).2.2 c hc
  obtain ⟨d, hd, hcd⟩ := cleanWords_chars s w hw c hc
  rw [stripped, List.mem_filter] at hd
  have hd304 : d.toNat ≠ 304 := h d hd.1
  rw [pyLowerChar_plain hd304, List.mem_singleton] at hcd
  subst hcd
  have hkeep := hd.2
  rw [keepChar, Bool.or_eq_true] at hkeep
  rcases hkeep with hword | hwsd
  · exact ⟨isWordChar_toLower hword, toLower_toLower d, toLower_toNat_ne hd304⟩
  · exfalso
    rw [toLower_of_whitespace hwsd] at hws
    rw [hwsd] at hws
    exact Bool.true_eq_false.mp hws

theorem clean_chars (s : List Char) (h : ∀ c ∈ s, c.toNat ≠ 304) :
    ∀ c ∈ clean_text s, keepChar c = true ∧ Char.toLower c = c ∧ c.toNat ≠ 304 := by
  intro c hc
  rcases mem_joinSpace _ hc with hsp | ⟨w, hw, hcw⟩
  · subst hsp
    exact ⟨by decide, by decide, by decide⟩
  · obtain ⟨hword, hlow, h304⟩ := cleanWords_pure s h w hw c hcw
    exact ⟨by rw [keepChar, hword, Bool.true_or], hlow, h304⟩

theorem no304_clean (s : List Char) (h : ∀ c ∈ s, c.toNat ≠ 304) :
    ∀ c ∈ clean_text s, c.toNat ≠ 304 :=
  fun c hc => (clean_chars s h c hc).2.2

theorem stripped_clean (s : List Char) (h : ∀ c ∈ s, c.toNat ≠ 304) :
    stripped (clean_text s) = clean_text s :=
  List.filter_eq_self.mpr (fun c hc => (clean_chars s h c hc).1)

theorem lowered_clean (s : List Char) (h : ∀ c ∈ s, c.toNat ≠ 304) :
    lowered (clean_text s) = clean_text s := by
  rw [lowered]
  exact flatMap_id_of pyLowerChar _ (fun c hc => by
    rw [pyLowerChar_plain ((clean_chars s h c hc).2.2), (clean_chars s h c hc).2.1])

theorem tokens_eq_cleanWords (s : List Char) : tokens s = cleanWords s := by
  rw [tokens, clean_text]
  exact splitRuns_joinSpace pyWhitespace (by decide) _
    (fun w hw => ⟨(cleanWords_basic s w hw).1,
      fun c hc => (cleanWords_basic s w hw).2.2 c hc⟩)

theorem preTokens_clean (s : List Char) (h : ∀ c ∈ s, c.toNat ≠ 304) :
    preTokens (clean_text s) = cleanWords s := by
  rw [preTokens, stripped_clean s h, lowered_clean s h, clean_text]
  exact splitRuns_joinSpace pyWhitespace (by decide) _
    (fun w hw => ⟨(cleanWords_basic s w hw).1,
      fun c hc => (cleanWords_basic s w hw).2.2 c hc⟩)

theorem cleanWords_clean (s : List Char) (h : ∀ c ∈ s, c.toNat ≠ 304) :
    cleanWords (clean_text s) = cleanWords s := by
  rw [cleanWords, preTokens_clean s h]
  exact List.filter_eq_self.mpr
    (fun w hw => decide_eq_true ((cleanWords_basic s w hw).2.1))

theorem clean_text_idem (s : List Char) (h : ∀ c ∈ s, c.toNat ≠ 304) :
    clean_text (clean_text s) = clean_text s := by
  rw [clean_text, cleanWords_clean s h, clean_text]

theorem length_splitRuns_flatMap (r : List Char) :
    ∀ l : List Char, (∀ c ∈ l, keepChar c = true) →
      (splitRuns pyWhitespace (l.flatMap pyLowerChar ++ r)).length ≤
        (l.filter isWordChar).length + (splitRuns pyWhitespace r).length := by
  intro l
  induction l with
  | nil => intro; simp
  | cons c cs ih =>
    intro hk
    have ihcs := ih (fun x hx => hk x (List.mem_cons_of_mem _ hx))
    have hkc := hk c (by simp)
    rw [List.flatMap_cons, List.append_assoc]
    by_cases h304 : c.toNat = 304
    · rw [pyLowerChar_dotted h304]
      have hword : isWordChar c = true := by rw [isWordChar_iff]; omega
      rw [List.filter_cons_of_pos hword]
      have h1 := length_splitRuns_cons_merge pyWhitespace (Char.ofNat 105)
        (Char.ofNat 775 :: (cs.flatMap pyLowerChar ++ r)) (by decide)
        (by rw [headSep_cons]; decide)
      have h2 := length_splitRuns_cons_le pyWhitespace (Char.ofNat 775)
        (cs.flatMap pyLowerChar ++ r)
      simp only [List.cons_append, List.nil_append, List.length_cons] at h1 h2 ⊢
      omega
    · rw [pyLowerChar_plain h304]
      simp only [List.singleton_append]
      have hkeep := hkc
      rw [keepChar, Bool.or_eq_true] at hkeep
      by_cases hws : pyWhitespace c = true
      · have hlc : Char.toLower c = c := toLower_of_whitespace hws
        have hsep : pyWhitespace (Char.toLower c) = true := by rw [hlc]; exact hws
        rw [length_splitRuns_cons_sep pyWhitespace _ _ hsep]
        have hword : isWordChar c = false := by
          cases hw2 : isWordChar c
          · rfl
          · exact absurd (word_not_whitespace hw2) (by simp [hws])
        rw [List.filter_cons_of_neg (by simp [hword])]
        exact ihcs
      · have hword : isWordChar c = true := by
          rcases hkeep with hw2 | hw2
          · exact hw2
          · exact absurd hw2 hws
        rw [List.filter_cons_of_pos hword]
        have hb := length_splitRuns_cons_le pyWhitespace (Char.toLower c)
          (cs.flatMap pyLowerChar ++ r)
        simp only [List.length_cons]
        omega

theorem tokens_length_le (s : List Char) :
    (tokens s).length ≤ (s.filter isWordChar).length := by
  rw [tokens_eq_cleanWords]
  refine le_trans (List.length_filter_le _ _) ?_
  rw [preTokens, lowered]
  have h0 := length_splitRuns_flatMap [] (stripped s)
    (fun c hc => (List.mem_filter.mp hc).2)
  rw [List.append_nil] at h0
  refine le_trans h0 ?_
  rw [stripped, List.filter_filter]
  have hfc : s.filter (fun a => isWordChar a && keepChar a) = s.filter isWordChar := by
    apply List.filter_congr
    intro a _
    cases hw : isWordChar a
    · simp
    · simp [keepChar, hw]
  rw [hfc]
  simp [splitRuns]

/-! ### First-occurrence deduplication -/

theorem mem_uniqueFirstAux {α : Type} [DecidableEq α] :
    ∀ (l seen : List α) (x : α),
      x ∈ uniqueFirstAux seen l ↔ x ∈ l ∧ x ∉ seen := by
  intro l
  induction l with
  | nil => intro seen x; simp [uniqueFirstAux]
  | cons a l ih =>
    intro seen x
    rw [uniqueFirstAux]
    by_cases ha : a ∈ seen
    · rw [if_pos ha, ih]
      constructor
      · exact fun h => ⟨List.mem_cons_of_mem _ h.1, h.2⟩
      · rintro ⟨hx, hns⟩
        rcases List.mem_cons.mp hx with h | h
        · subst h; exact absurd ha hns
        · exact ⟨h, hns⟩
    · rw [if_neg ha]
      constructor
      · intro h
        rcases List.mem_cons.mp h with h | h
        · subst h; exact ⟨by simp, ha⟩
        · obtain ⟨hl, hs⟩ := (ih (a :: seen) x).mp h
          exact ⟨List.mem_cons_of_mem _ hl, fun hx => hs (List.mem_cons_of_mem _ hx)⟩
      · rintro ⟨hx, hns⟩
        by_cases hxa : x = a
        · subst hxa; simp
        · rcases List.mem_cons.mp hx with h | h
          · exact absurd h hxa
          · exact List.mem_cons_of_mem _
              ((ih (a :: seen) x).mpr ⟨h, by simp [hxa, hns]⟩)

theorem mem_uniqueFirst {α : Type} [DecidableEq α] (l : List α) (x : α) :
    x ∈ uniqueFirst l ↔ x ∈ l := by
  rw [uniqueFirst, mem_uniqueFirstAux]
  simp

theorem nodup_uniqueFirstAux {α : Type} [DecidableEq α] :
    ∀ (l seen : List α), (uniqueFirstAux seen l).Nodup := by
  intro l
  induction l with
  | nil => intro seen; simp [uniqueFirstAux]
  | cons a l ih =>
    intro seen
    rw [uniqueFirstAux]
    by_cases ha : a ∈ seen
    · rw [if_pos ha]; exact ih seen
    · rw [if_neg ha]
      rw [List.nodup_cons]
      refine ⟨fun hmem => ?_, ih (a :: seen)⟩
      exact ((mem_uniqueFirstAux l (a :: seen) a).mp hmem).2 (by simp)

theorem nodup_uniqueFirst {α : Type} [DecidableEq α] (l : List α) :
    (uniqueFirst l).Nodup := nodup_uniqueFirstAux l []

theorem indexOf_cons_same {α : Type} [BEq α] [LawfulBEq α] (a : α) (l : List α) :
    (a :: l).indexOf a = 0 := by
  rw [List.indexOf, List.findIdx_cons]
  simp

theorem indexOf_cons_diff {α : Type} [BEq α] [LawfulBEq α] {a b : α} (l : List α)
    (h : b ≠ a) : (b :: l).indexOf a = l.indexOf a + 1 := by
  rw [List.indexOf, List.findIdx_cons]
  have hba : (b == a) = false := beq_eq_false_iff_ne.mpr h
  rw [hba]
  rfl

theorem pairwise_indexOf_uniqueFirstAux :
    ∀ (l seen : List (List Char)),
      (uniqueFirstAux seen l).Pairwise (fun a b => l.indexOf a < l.indexOf b) := by
  intro l
  induction l with
  | nil => intro seen; simp [uniqueFirstAux]
  | cons a l ih =>
    intro seen
    rw [uniqueFirstAux]
    by_cases ha : a ∈ seen
    · rw [if_pos ha]
      refine ((ih seen).imp_of_mem ?_)
      intro x y hx hy hlt
      have hxa : x ≠ a := fun h =>
        ((mem_uniqueFirstAux l seen x).mp hx).2 (h ▸ ha)
      have hya : y ≠ a := fun h =>
        ((mem_uniqueFirstAux l seen y).mp hy).2 (h ▸ ha)
      rw [indexOf_cons_diff _ (Ne.symm hxa), indexOf_cons_diff _ (Ne.symm hya)]
      omega
    · rw [if_neg ha]
      rw [List.pairwise_cons]
      constructor
      · intro b hb
        have hba : b ≠ a := fun h =>
          ((mem_uniqueFirstAux l (a :: seen) b).mp hb).2 (h ▸ List.mem_cons_self a seen)
        rw [indexOf_cons_same, indexOf_cons_diff _ (Ne.symm hba)]
        omega
      · refine ((ih (a :: seen)).imp_of_mem ?_)
        intro x y hx hy hlt
        have hxa : x ≠ a := fun h =>
          ((mem_uniqueFirstAux l (a :: seen) x).mp hx).2 (h ▸ List.mem_cons_self a seen)
        have hya : y ≠ a := fun h =>
          ((mem_uniqueFirstAux l (a :: seen) y).mp hy).2 (h ▸ List.mem_cons_self a seen)
        rw [indexOf_cons_diff _ (Ne.symm hxa), indexOf_cons_diff _ (Ne.symm hya)]
        omega

theorem pairwise_indexOf_uniqueFirst (l : List (List Char)) :
    (uniqueFirst l).Pairwise (fun a b => l.indexOf a < l.indexOf b) :=
  pairwise_indexOf_uniqueFirstAux l []

/-! ### Ascending insertion sort (`sorted(set(...))`) -/

theorem mem_insertAsc (x : Nat) : ∀ (l : List Nat) (y : Nat),
    y ∈ insertAsc x l ↔ y = x ∨ y ∈ l := by
  intro l
  induction l with
  | nil => intro y; simp [insertAsc]
  | cons a l ih =>
    intro y
    rw [insertAsc]
    by_cases h : x ≤ a
    · rw [if_pos h]; simp [List.mem_cons]
    · rw [if_neg h]
      simp only [List.mem_cons, ih]
      tauto

theorem perm_insertAsc (x : Nat) : ∀ l : List Nat, (insertAsc x l).Perm (x :: l) := by
  intro l
  induction l with
  | nil => simp [insertAsc]
  | cons a l ih =>
    rw [insertAsc]
    by_cases h : x ≤ a
    · rw [if_pos h]
    · rw [if_neg h]
      exact (ih.cons a).trans (List.Perm.swap x a l)

theorem sorted_insertAsc (x : Nat) :
    ∀ l : List Nat, l.Pairwise (· ≤ ·) → (insertAsc x l).Pairwise (· ≤ ·) := by
  intro l
  induction l with
  | nil => intro; simp [insertAsc]
  | cons a l ih =>
    intro hl
    rw [List.pairwise_cons] at hl
    rw [insertAsc]
    by_cases h : x ≤ a
    · rw [if_pos h]
      rw [List.pairwise_cons]
      refine ⟨fun b hb => ?_, List.pairwise_cons.mpr hl⟩
      rcases List.mem_cons.mp hb with hba | hbl
      · subst hba; exact h
      · exact le_trans h (hl.1 b hbl)
    · rw [if_neg h]
      rw [List.pairwise_cons]
      refine ⟨fun b hb => ?_, ih hl.2⟩
      rcases (mem_insertAsc x l b).mp hb with hbx | hbl
      · subst hbx; omega
      · exact hl.1 b hbl

theorem perm_sortAsc : ∀ l : List Nat, (sortAsc l).Perm l := by
  intro l
  induction l with
  | nil => rfl
  | cons a l ih =>
    rw [sortAsc]
    exact (perm_insertAsc a (sortAsc l)).trans (ih.cons a)

theorem sorted_sortAsc : ∀ l : List Nat, (sortAsc l).Pairwise (· ≤ ·) := by
  intro l
  induction l with
  | nil => simp [sortAsc]
  | cons a l ih => exact sorted_insertAsc a (sortAsc l) ih

theorem mem_sortedSet (l : List Nat) (x : Nat) : x ∈ sortedSet l ↔ x ∈ l := by
  rw [sortedSet, (perm_sortAsc _).mem_iff, mem_uniqueFirst]

theorem nodup_sortedSet (l : List Nat) : (sortedSet l).Nodup :=
  ((perm_sortAsc _).nodup_iff).mpr (nodup_uniqueFirst l)

theorem sorted_sortedSet (l : List Nat) : (sortedSet l).Pairwise (· ≤ ·) :=
  sorted_sortAsc _

/-! ### Posting lists -/

theorem mem_occListFrom (t : List Char) :
    ∀ (ds : List Document) (i x : Nat),
      x ∈ occListFrom t i ds ↔
        ∃ j, j < ds.length ∧ x = i + j + 1 ∧ t ∈ docTokens (ds.getD j default) := by
  intro ds
  induction ds with
  | nil => intro i x; simp [occListFrom]
  | cons d ds ih =>
    intro i x
    rw [occListFrom, List.mem_append, List.mem_replicate, ih]
    constructor
    · rintro (⟨hcnt, hx⟩ | ⟨j, hj, hx, hmem⟩)
      · refine ⟨0, by simp, by omega, ?_⟩
        simpa using List.count_pos_iff.mp (Nat.pos_of_ne_zero hcnt)
      · exact ⟨j + 1, by simp; omega, by omega, by simpa using hmem⟩
    · rintro ⟨j, hj, hx, hmem⟩
      match j with
      | 0 =>
        left
        simp only [List.getD_cons_zero] at hmem
        exact ⟨Nat.pos_iff_ne_zero.mp (List.count_pos_iff.mpr hmem), by omega⟩
      | j + 1 =>
        right
        exact ⟨j, by simp at hj; omega, by omega, by simpa using hmem⟩

theorem mem_postingList (docs : List Document) (t : List Char) (x : Nat) :
    x ∈ postingList docs t ↔
      ∃ j, j < docs.length ∧ x = j + 1 ∧ t ∈ docTokens (docs.getD j default) := by
  rw [postingList, mem_sortedSet, occList, mem_occListFrom]
  constructor
  · rintro ⟨j, hj, hx, hm⟩; exact ⟨j, hj, by omega, hm⟩
  · rintro ⟨j, hj, hx, hm⟩; exact ⟨j, hj, by omega, hm⟩

theorem mem_docsContaining (docs : List Document) (t : List Char) (x : Nat) :
    x ∈ docsContaining docs t ↔
      ∃ j, j < docs.length ∧ x = j + 1 ∧ t ∈ docTokens (docs.getD j default) := by
  rw [docsContaining]
  simp only [List.mem_map, List.mem_filter, List.mem_range, decide_eq_true_eq]
  constructor
  · rintro ⟨j, ⟨hj, hm⟩, hx⟩; exact ⟨j, hj, hx.symm, hm⟩
  · rintro ⟨j, hj, hx, hm⟩; exact ⟨j, ⟨hj, hm⟩, hx.symm⟩

theorem pairwise_lt_docsContaining (docs : List Document) (t : List Char) :
    (docsContaining docs t).Pairwise (· < ·) := by
  rw [docsContaining]
  exact (((List.pairwise_lt_range _).filter _).map _ (fun a b hab => by omega))

theorem nodup_docsContaining (docs : List Document) (t : List Char) :
    (docsContaining docs t).Nodup :=
  (pairwise_lt_docsContaining docs t).imp (fun h => Nat.ne_of_lt h)

theorem sorted_docsContaining (docs : List Document) (t : List Char) :
    (docsContaining docs t).Pairwise (· ≤ ·) :=
  (pairwise_lt_docsContaining docs t).imp (fun h => Nat.le_of_lt h)

theorem postingList_eq_docsContaining (docs : List Document) (t : List Char) :
    postingList docs t = docsContaining docs t := by
  apply List.eq_of_perm_of_sorted
    ((List.perm_ext_iff_of_nodup (nodup_sortedSet _) (nodup_docsContaining docs t)).mpr
      (fun x => by rw [← postingList, mem_postingList, mem_docsContaining]))
    (sorted_sortedSet _) (sorted_docsContaining docs t)

theorem pairwise_lt_postingList (docs : List Document) (t : List Char) :
    (postingList docs t).Pairwise (· < ·) := by
  rw [postingList_eq_docsContaining]
  exact pairwise_lt_docsContaining docs t

theorem mem_buildIndex {k : Nat} {docs : List Document} {t : List Char}
    {pl : List Nat} (h : (t, pl) ∈ buildIndex k docs) :
    pl = postingList docs t := by
  rw [buildIndex] at h
  obtain ⟨e, he, hfe⟩ := List.mem_filterMap.mp h
  by_cases hmem : e.1 ∈ allWords docs
  · rw [if_pos hmem] at hfe
    obtain ⟨h1, h2⟩ := Prod.mk.injEq .. ▸ Option.some.inj hfe
    subst h1
    exact h2.symm
  · rw [if_neg hmem] at hfe
    exact absurd hfe (by simp)

/-! ### The Vocabulary Ranker: stable descending sort by frequency -/

theorem mem_insertDesc (x : List Char × Nat) :
    ∀ (l : List (List Char × Nat)) (y : List Char × Nat),
      y ∈ insertDesc x l ↔ y = x ∨ y ∈ l := by
  intro l
  induction l with
  | nil => intro y; simp [insertDesc]
  | cons a l ih =>
    intro y
    rw [insertDesc]
    by_cases h : x.2 < a.2
    · rw [if_pos h]
      simp only [List.mem_cons, ih]
      tauto
    · rw [if_neg h]
      simp [List.mem_cons]

theorem perm_insertDesc (x : List Char × Nat) :
    ∀ l : List (List Char × Nat), (insertDesc x l).Perm (x :: l) := by
  intro l
  induction l with
  | nil => simp [insertDesc]
  | cons a l ih =>
    rw [insertDesc]
    by_cases h : x.2 < a.2
    · rw [if_pos h]
      exact (ih.cons a).trans (List.Perm.swap x a l)
    · rw [if_neg h]

theorem perm_sortDesc : ∀ l : List (List Char × Nat), (sortDesc l).Perm l := by
  intro l
  induction l with
  | nil => rfl
  | cons a l ih =>
    rw [sortDesc]
    exact (perm_insertDesc a (sortDesc l)).trans (ih.cons a)

theorem insertDesc_pairwise {R : List Char × Nat → List Char × Nat → Prop}
    (x : List Char × Nat) :
    ∀ l : List (List Char × Nat),
      l.Pairwise (fun a b => b.2 ≤ a.2 ∧ (a.2 = b.2 → R a b)) →
      (∀ z ∈ l, x.2 = z.2 → R x z) →
      (insertDesc x l).Pairwise (fun a b => b.2 ≤ a.2 ∧ (a.2 = b.2 → R a b)) := by
  intro l
  induction l with
  | nil => intro _ _; simp [insertDesc]
  | cons y ys ih =>
    intro hl hx
    rw [List.pairwise_cons] at hl
    rw [insertDesc]
    by_cases h : x.2 < y.2
    · rw [if_pos h]
      rw [List.pairwise_cons]
      constructor
      · intro b hb
        rcases (mem_insertDesc x ys b).mp hb with hbx | hby
        · subst hbx
          exact ⟨Nat.le_of_lt h, fun he => absurd he (by omega)⟩
        · exact hl.1 b hby
      · exact ih hl.2 (fun z hz he => hx z (List.mem_cons_of_mem _ hz) he)
    · rw [if_neg h]
      rw [List.pairwise_cons]
      constructor
      · intro b hb
        rcases List.mem_cons.mp hb with hby | hbys
        · subst hby
          exact ⟨by omega, hx b (by simp)⟩
        · have hyb := hl.1 b hbys
          exact ⟨le_trans hyb.1 (by omega), hx b (List.mem_cons_of_mem _ hbys)⟩
      · exact List.pairwise_cons.mpr hl

theorem sortDesc_pairwise {R : List Char × Nat → List Char × Nat → Prop} :
    ∀ l : List (List Char × Nat), l.Pairwise R →
      (sortDesc l).Pairwise (fun a b => b.2 ≤ a.2 ∧ (a.2 = b.2 → R a b)) := by
  intro l
  induction l with
  | nil => intro; simp [sortDesc]
  | cons x xs ih =>
    intro hl
    rw [List.pairwise_cons] at hl
    rw [sortDesc]
    exact insertDesc_pairwise x (sortDesc xs) (ih hl.2)
      (fun z hz _ => hl.1 z ((perm_sortDesc xs).mem_iff.mp hz))

theorem entriesOf_pairwise (s : List (List Char)) :
    (entriesOf s).Pairwise (fun a b => s.indexOf a.1 < s.indexOf b.1) :=
  (pairwise_indexOf_uniqueFirst s).map _ (fun _ _ hab => hab)

theorem mem_entriesOf {s : List (List Char)} {e : List Char × Nat}
    (h : e ∈ entriesOf s) : e.1 ∈ s ∧ e.2 = s.count e.1 := by
  rw [entriesOf, List.mem_map] at h
  obtain ⟨t, ht, hte⟩ := h
  subst hte
  exact ⟨(mem_uniqueFirst s t).mp ht, rfl⟩

theorem length_entriesOf (s : List (List Char)) :
    (entriesOf s).length = (uniqueFirst s).length := by
  rw [entriesOf, List.length_map]

/-! ### The vectorizer vocabulary and query scoring -/

theorem vecTokenize_clean (s : List Char) (h : ∀ c ∈ s, c.toNat ≠ 304) :
    vecTokenize (clean_text s) =
      (tokens s).filter (fun w => decide (2 ≤ w.length)) := by
  rw [vecTokenize, lowered_clean s h, clean_text, tokens_eq_cleanWords]
  rw [splitRuns_joinSpace (fun c => !isWordChar c) (by decide) _
    (fun w hw => ⟨(cleanWords_basic s w hw).1,
      fun c hc => by simp [(cleanWords_pure s h w hw c hc).1]⟩)]

theorem mem_vecTokenize_min_length {s t : List Char} (h : t ∈ vecTokenize s) :
    2 ≤ t.length := by
  rw [vecTokenize, List.mem_filter, decide_eq_true_eq] at h
  exact h.2

theorem mem_allWords (docs : List Document) (t : List Char) :
    t ∈ allWords docs ↔ ∃ d ∈ docs, t ∈ docTokens d := by
  rw [allWords, List.mem_flatten]
  constructor
  · rintro ⟨l, hl, ht⟩
    obtain ⟨d, hd, hdl⟩ := List.mem_map.mp hl
    exact ⟨d, hd, hdl ▸ ht⟩
  · rintro ⟨d, hd, ht⟩
    exact ⟨docTokens d, List.mem_map.mpr ⟨d, hd, rfl⟩, ht⟩

theorem vocab_min_length {docs : List Document} {t : List Char}
    (h : t ∈ vocabOf docs) : 2 ≤ t.length := by
  rw [vocabOf, mem_uniqueFirst, List.mem_flatten] at h
  obtain ⟨l, hl, ht⟩ := h
  obtain ⟨d, _, hdl⟩ := List.mem_map.mp hl
  exact mem_vecTokenize_min_length (hdl ▸ ht)

theorem mem_vocabOf (docs : List Document) (t : List Char)
    (h : ∀ d ∈ docs, ∀ c ∈ content d, c.toNat ≠ 304) :
    t ∈ vocabOf docs ↔ t ∈ allWords docs ∧ 2 ≤ t.length := by
  rw [vocabOf, mem_uniqueFirst, List.mem_flatten]
  constructor
  · rintro ⟨l, hl, ht⟩
    obtain ⟨d, hd, hdl⟩ := List.mem_map.mp hl
    rw [← hdl, vecTokenize_clean _ (h d hd), List.mem_filter] at ht
    rw [decide_eq_true_eq] at ht
    exact ⟨(mem_allWords docs t).mpr ⟨d, hd, ht.1⟩, ht.2⟩
  · rintro ⟨hall, hlen⟩
    obtain ⟨d, hd, ht⟩ := (mem_allWords docs t).mp hall
    refine ⟨vecTokenize (clean_text (content d)), List.mem_map.mpr ⟨d, hd, rfl⟩, ?_⟩
    rw [vecTokenize_clean _ (h d hd), List.mem_filter, decide_eq_true_eq]
    exact ⟨ht, hlen⟩

theorem calculate_tfidf_ok {W : Nat → List Char → ℚ} {docs : List Document}
    {query : List Char} {res : List (List Char × QueryResult)}
    (h : calculate_tfidf W docs query = Except.ok res) :
    res = scoreResults W docs query := by
  rw [calculate_tfidf] at h
  by_cases hv : vocabOf docs = []
  · rw [if_pos hv] at h
    exact absurd h (by simp)
  · rw [if_neg hv] at h
    exact (Except.ok.inj h).symm

theorem mem_scoreResults {W : Nat → List Char → ℚ} {docs : List Document}
    {query : List Char} {t : List Char} {r : QueryResult}
    (hm : (t, r) ∈ scoreResults W docs query) :
    t ∈ tokens query ∧
      r = if t ∈ vocabOf docs then QueryResult.found (colSum W docs.length t)
          else QueryResult.notFound := by
  rw [scoreResults, List.mem_map] at hm
  obtain ⟨t0, ht0, heq⟩ := hm
  have h1 : t0 = t := congrArg Prod.fst heq
  have h2 := congrArg Prod.snd heq
  subst h1
  exact ⟨ht0, h2.symm⟩

/-! ### Claim theorems -/

/-- C1: for every corpus and every term `t` included in the built inverted
index, `t`'s posting list is exactly the deduplicated, strictly
ascending-sorted set of 1-indexed document ids whose normalized (cleaned
title+body) text contains `t` at least once: it equals the ascending
enumeration `docsContaining`, is strictly sorted, every id in it names an
in-range document whose cleaned tokens contain `t`, and every document
containing `t` contributes its id. -/
theorem C1_posting_list_exact (k : Nat) (docs : List Document)
    (t : List Char) (pl : List Nat) (h : (t, pl) ∈ buildIndex k docs) :
    pl = docsContaining docs t ∧
    pl.Pairwise (· < ·) ∧
    (∀ id ∈ pl, 1 ≤ id ∧ id ≤ docs.length ∧
      t ∈ docTokens (docs.getD (id - 1) default)) ∧
    (∀ j, j < docs.length → t ∈ docTokens (docs.getD j default) → j + 1 ∈ pl) := by
  have hpl := mem_buildIndex h
  subst hpl
  refine ⟨postingList_eq_docsContaining docs t, pairwise_lt_postingList docs t, ?_, ?_⟩
  · intro id hid
    obtain ⟨j, hj, hide, hmem⟩ := (mem_postingList docs t id).mp hid
    subst hide
    refine ⟨by omega, by omega, ?_⟩
    simpa using hmem
  · intro j hj hmem
    exact (mem_postingList docs t _).mpr ⟨j, hj, rfl, hmem⟩

/-- Concrete corpus used to witness C1. -/
def c1docs : List Document :=
  [⟨("dogs bark").data, []⟩, ⟨("cats purr").data, []⟩, ⟨("dogs run").data, []⟩]

/-- Witness for C1: on a three-document corpus the term `dogs` is in the
built index with posting list `[1, 3]`, and the posting-list guarantees
hold for it. -/
theorem C1_witness :
    ([1, 3] : List Nat) = docsContaining c1docs (("dogs").data) ∧
    ([1, 3] : List Nat).Pairwise (· < ·) ∧
    (∀ id ∈ ([1, 3] : List Nat), 1 ≤ id ∧ id ≤ c1docs.length ∧
      ("dogs").data ∈ docTokens (c1docs.getD (id - 1) default)) ∧
    (∀ j, j < c1docs.length →
      ("dogs").data ∈ docTokens (c1docs.getD j default) → j + 1 ∈ ([1, 3] : List Nat)) :=
  C1_posting_list_exact 15 c1docs (("dogs").data) [1, 3] (by decide)

/-- C2: for every token stream and every `k > 0`, `most_common(k)` returns
at most `k` entries (exactly `min k` with the number of distinct terms, so
all of them when fewer than `k` exist), sorted by non-increasing
frequency; entries of equal frequency appear in the order of their first
occurrence in the stream; every returned entry carries the exact occurrence
count of a stream term; and when there are at most `k` distinct terms every
stream term appears in the output. -/
theorem C2_ranker_spec (s : List (List Char)) (k : Nat) (hk : 0 < k) :
    (mostCommon k s).length = min k (uniqueFirst s).length ∧
    (mostCommon k s).Pairwise (fun a b => b.2 ≤ a.2) ∧
    (mostCommon k s).Pairwise (fun a b => a.2 = b.2 → s.indexOf a.1 < s.indexOf b.1) ∧
    (∀ e ∈ mostCommon k s, e.1 ∈ s ∧ e.2 = s.count e.1) ∧
    ((uniqueFirst s).length ≤ k → ∀ t ∈ s, (t, s.count t) ∈ mostCommon k s) := by
  have hpw := sortDesc_pairwise (entriesOf s) (entriesOf_pairwise s)
  refine ⟨?_, ?_, ?_, ?_, ?_⟩
  · rw [mostCommon, List.length_take, (perm_sortDesc _).length_eq, length_entriesOf]
  · exact List.Pairwise.sublist (List.take_sublist k _) (hpw.imp (fun hab => hab.1))
  · exact List.Pairwise.sublist (List.take_sublist k _) (hpw.imp (fun hab => hab.2))
  · intro e he
    exact mem_entriesOf ((perm_sortDesc _).mem_iff.mp (List.mem_of_mem_take he))
  · intro hlen t ht
    have hall : (sortDesc (entriesOf s)).take k = sortDesc (entriesOf s) :=
      List.take_of_length_le (by rw [(perm_sortDesc _).length_eq, length_entriesOf]; exact hlen)
    rw [mostCommon, hall, (perm_sortDesc _).mem_iff]
    exact List.mem_map.mpr ⟨t, (mem_uniqueFirst s t).mpr ht, rfl⟩

/-- Concrete token stream used to witness C2. -/
def c2stream : List (List Char) :=
  [("aa").data, ("bb").data, ("aa").data, ("cc").data, ("bb").data]

/-- Witness for C2 at a concrete stream and `k = 2`. -/
theorem C2_witness :
    (mostCommon 2 c2stream).length = min 2 (uniqueFirst c2stream).length ∧
    (mostCommon 2 c2stream).Pairwise (fun a b => b.2 ≤ a.2) ∧
    (mostCommon 2 c2stream).Pairwise
      (fun a b => a.2 = b.2 → c2stream.indexOf a.1 < c2stream.indexOf b.1) ∧
    (∀ e ∈ mostCommon 2 c2stream, e.1 ∈ c2stream ∧ e.2 = c2stream.count e.1) ∧
    ((uniqueFirst c2stream).length ≤ 2 →
      ∀ t ∈ c2stream, (t, c2stream.count t) ∈ mostCommon 2 c2stream) :=
  C2_ranker_spec c2stream 2 (by decide)

end InfoRec

namespace InfoRec

/-- C3: for every query term of `calculate_tfidf`'s query loop, the result
is the sum of the term's weight column over all documents when the term is
in the vectorizer vocabulary, and the distinct `notFound` marker — never
the numeric score `0` nor any other `found` value — when it is absent. -/
theorem C3_score_found_or_not (W : Nat → List Char → ℚ) (docs : List Document)
    (query : List Char) (res : List (List Char × QueryResult))
    (h : calculate_tfidf W docs query = Except.ok res) :
    ∀ t r, (t, r) ∈ res →
      (t ∈ vocabOf docs → r = QueryResult.found (colSum W docs.length t)) ∧
      (t ∉ vocabOf docs →
        r = QueryResult.notFound ∧ ∀ q : ℚ, r ≠ QueryResult.found q) := by
  intro t r hm
  rw [calculate_tfidf_ok h] at hm
  have hr := (mem_scoreResults hm).2
  constructor
  · intro hin
    rw [hr, if_pos hin]
  · intro hout
    rw [hr, if_neg hout]
    exact ⟨rfl, fun q hq => QueryResult.noConfusion hq⟩

/-- Concrete corpus, weights and query used to witness C3. -/
def c3docs : List Document := [⟨("cats cats dogs").data, []⟩]

/-- Constant weight matrix for the C3 witness (the claim holds for every
weight matrix). -/
def c3W : Nat → List Char → ℚ := fun _ _ => 1

/-- Witness for C3: scoring the query `"zebra cats"` against the one-document
corpus, the term `zebra` (absent from the corpus) gets `notFound`, never a
numeric score. -/
theorem C3_witness :
    ((("zebra").data ∈ vocabOf c3docs →
        QueryResult.notFound = QueryResult.found (colSum c3W c3docs.length (("zebra").data))) ∧
     (("zebra").data ∉ vocabOf c3docs →
        QueryResult.notFound = QueryResult.notFound ∧
        ∀ q : ℚ, QueryResult.notFound ≠ QueryResult.found q)) :=
  C3_score_found_or_not c3W c3docs (("zebra cats").data)
    (scoreResults c3W c3docs (("zebra cats").data))
    (by rw [calculate_tfidf, if_neg (by decide)])
    (("zebra").data) QueryResult.notFound (by decide)

/-- C4 counterexample: the claim "every token produced by normalizing any
document's text is a column of the matrix" fails: in the one-document
corpus with cleaned text `"x cats"`, the normalized token `x` occurs in the
document's token sequence (and in the corpus token stream) but is not in
the vectorizer vocabulary, because sklearn's default token pattern keeps
only tokens of length at least two. -/
theorem C4_counterexample :
    (("x").data ∈ docTokens ⟨("x cats").data, []⟩) ∧
    (("x").data ∈ allWords [⟨("x cats").data, []⟩]) ∧
    (("x").data ∉ vocabOf [⟨("x cats").data, []⟩]) := by decide

/-- A second gap between normalized tokens and the vectorizer vocabulary,
forcing the premise of the amended C4: the document text `İx` (U+0130
then `x`) normalizes to the single token `i` + U+0307 + `x`, of length 3,
but that token is not a vocabulary column: U+0307 is not a word character,
so the token pattern only sees the two length-1 runs `i` and `x` and keeps
neither. -/
theorem vocab_misses_combining_token :
    ([Char.ofNat 105, Char.ofNat 775, ('x' : Char)]
        ∈ allWords [⟨[Char.ofNat 304, 'x'], []⟩]) ∧
    2 ≤ ([Char.ofNat 105, Char.ofNat 775, ('x' : Char)]).length ∧
    ([Char.ofNat 105, Char.ofNat 775, ('x' : Char)]
        ∉ vocabOf [⟨[Char.ofNat 304, 'x'], []⟩]) := by decide

/-- C4 amended: for every corpus whose document texts contain no U+0130
(`İ`, the character whose lowercasing introduces the non-word combining
mark U+0307), the column vocabulary of the TF-IDF matrix is exactly the
set of corpus tokens of length at least two — all distinct normalized
tokens with no top-K restriction, but excluding single-character tokens
(sklearn's default `token_pattern` `\b\w\w+\b`).  Texts containing `İ`
can normalize to tokens holding U+0307, which the word-run token pattern
never matches (`vocab_misses_combining_token`). -/
theorem C4_vocab_amended (docs : List Document) (t : List Char)
    (h : ∀ d ∈ docs, ∀ c ∈ content d, c.toNat ≠ 304) :
    t ∈ vocabOf docs ↔ t ∈ allWords docs ∧ 2 ≤ t.length :=
  mem_vocabOf docs t h

/-- Witness for the amended C4 on a concrete one-document corpus: `cats`
is a vocabulary column exactly because it is a normalized corpus token of
length at least two. -/
theorem C4_witness :
    ("cats").data ∈ vocabOf [⟨("x cats").data, []⟩] ↔
      ("cats").data ∈ allWords [⟨("x cats").data, []⟩] ∧
        2 ≤ (("cats").data).length :=
  C4_vocab_amended [⟨("x cats").data, []⟩] (("cats").data) (by decide)

/-- C5 counterexample: on the empty corpus, building the TF-IDF matrix does
not return a zero-row matrix with `notFound` scores; sklearn raises
`ValueError: empty vocabulary`, which the source re-raises, so the scoring
operation errors instead of succeeding. -/
theorem C5_counterexample :
    calculate_tfidf (fun _ _ => (0 : ℚ)) [] [] =
      Except.error (("empty vocabulary").data) ∧
    resultOk (calculate_tfidf (fun _ _ => (0 : ℚ)) [] []) = false :=
  ⟨rfl, rfl⟩

/-- C5 amended: on an empty corpus `most_common` returns an empty sequence,
the built inverted index is an empty mapping and the corpus token stream is
empty, all without error; but `calculate_tfidf` raises sklearn's
empty-vocabulary error for every query and weight matrix, so `score` never
returns per-term results there. -/
theorem C5_empty_corpus_amended (k : Nat) (query : List Char)
    (W : Nat → List Char → ℚ) :
    mostCommon k (corpusTokens []) = [] ∧
    buildIndex k [] = [] ∧
    corpusTokens [] = [] ∧
    calculate_tfidf W [] query = Except.error (("empty vocabulary").data) := by
  have h0 : mostCommon k (corpusTokens []) = [] := by
    show (sortDesc (entriesOf (corpusTokens []))).take k = []
    have he : sortDesc (entriesOf (corpusTokens ([] : List Document))) = [] := rfl
    rw [he, List.take_nil]
  refine ⟨h0, ?_, rfl, ?_⟩
  · rw [buildIndex, h0]
    rfl
  · rw [calculate_tfidf, if_pos (show vocabOf ([] : List Document) = [] from rfl)]

end InfoRec

namespace InfoRec

/-- C6 counterexample: normalization is not idempotent on every string.
The input consisting of the single character `İ` (U+0130) normalizes to
the one token `i` + U+0307 (Python lowercases `İ` to that two-character
sequence, and the combining mark survives the word-or-whitespace filter
because that filter ran before lowercasing); renormalizing the rejoined
output strips the now-exposed non-word U+0307 and then drops the
remaining `i` as a stopword, leaving no token at all. -/
theorem C6_counterexample :
    tokens ([Char.ofNat 304]) = [[Char.ofNat 105, Char.ofNat 775]] ∧
    tokens (joinSpace (tokens ([Char.ofNat 304]))) = [] ∧
    tokens (joinSpace (tokens ([Char.ofNat 304]))) ≠ tokens ([Char.ofNat 304]) := by
  decide

/-- C6 amended: normalization is idempotent on every input containing no
U+0130 (`İ`, the one character whose lowercasing introduces a character
outside the word class): rejoining the token sequence of `clean_text`
with single spaces and normalizing again yields the same token sequence,
and `clean_text` itself is a fixpoint on its own output.  On inputs
containing `İ` idempotence fails (`C6_counterexample`). -/
theorem C6_normalize_idem (s : List Char) (h : ∀ c ∈ s, c.toNat ≠ 304) :
    tokens (joinSpace (tokens s)) = tokens s ∧
    clean_text (clean_text s) = clean_text s := by
  have h1 : joinSpace (tokens s) = clean_text s := by
    rw [tokens_eq_cleanWords, clean_text]
  refine ⟨?_, clean_text_idem s h⟩
  rw [h1]
  calc tokens (clean_text s) = cleanWords (clean_text s) := tokens_eq_cleanWords _
    _ = cleanWords s := cleanWords_clean s h
    _ = tokens s := (tokens_eq_cleanWords s).symm

/-- Witness for the amended C6 on a concrete mixed-case input with
punctuation and stopwords. -/
theorem C6_witness :
    tokens (joinSpace (tokens (("The CATS!! are funny").data))) =
      tokens (("The CATS!! are funny").data) ∧
    clean_text (clean_text (("The CATS!! are funny").data)) =
      clean_text (("The CATS!! are funny").data) :=
  C6_normalize_idem (("The CATS!! are funny").data) (by decide)

/-- The three-document example corpus of the specification (body empty,
title carrying the text). -/
def c7docs : List Document :=
  [⟨("funny cats jumping").data, []⟩,
   ⟨("funny dogs running").data, []⟩,
   ⟨("cats and dogs playing").data, []⟩]

/-- C7 counterexample: on the spec's example corpus the top-2 terms are not
`cats` then `dogs`: the term `funny` also has frequency 2 and occurs first
in the stream, so the stable `most_common(2)` selection starts with it, and
consequently `dogs` (with its claimed posting list `[2, 3]`) is not in the
built K=2 index at all. -/
theorem C7_counterexample :
    mostCommon 2 (corpusTokens c7docs) ≠
      [(("cats").data, 2), (("dogs").data, 2)] ∧
    (("dogs").data, ([2, 3] : List Nat)) ∉ buildIndex 2 c7docs := by decide

/-- C7 amended: on the example corpus `most_common(2)` returns `funny`
(frequency 2) then `cats` (frequency 2) — the first-occurrence tie-break
puts `funny`, which also has frequency 2 and appears first, ahead — and the
built K=2 index maps `funny` to `[1, 2]` and `cats` to `[1, 3]`.  The
claim's posting sets themselves are correct: `cats` occurs in documents
1 and 3 and `dogs` in documents 2 and 3. -/
theorem C7_example_amended :
    mostCommon 2 (corpusTokens c7docs) =
      [(("funny").data, 2), (("cats").data, 2)] ∧
    buildIndex 2 c7docs =
      [(("funny").data, [1, 2]), (("cats").data, [1, 3])] ∧
    postingList c7docs (("cats").data) = [1, 3] ∧
    postingList c7docs (("dogs").data) = [2, 3] := by decide

/-- C8: normalization is total and never fails: it is a total function in
this model, its output token count is bounded by the number of word
characters of the input, and on input with no word character at all (empty,
punctuation-only or emoji-only text) it degrades gracefully to the empty
token sequence. -/
theorem C8_normalize_total (s : List Char) :
    (tokens s).length ≤ (s.filter isWordChar).length ∧
    ((∀ c ∈ s, isWordChar c = false) → tokens s = []) := by
  refine ⟨tokens_length_le s, fun h => ?_⟩
  have h0 : s.filter isWordChar = [] :=
    List.filter_eq_nil_iff.mpr (fun a ha => by simp [h a ha])
  have hle := tokens_length_le s
  rw [h0] at hle
  exact List.length_eq_zero.mp (Nat.le_zero.mp (by simpa using hle))

/-- Witness for C8 on a punctuation-and-emoji-only input. -/
theorem C8_witness :
    (tokens (("?!? 😀 ***").data)).length ≤
      (((("?!? 😀 ***").data)).filter isWordChar).length ∧
    tokens (("?!? 😀 ***").data) = [] :=
  ⟨(C8_normalize_total _).1, (C8_normalize_total _).2 (by decide)⟩

/-- C9: a query term that is a single character after normalization is
reported `notFound` even when it occurs in the corpus's normalized text,
because the vectorizer vocabulary only contains tokens of length at least
two. -/
theorem C9_single_char_not_found (W : Nat → List Char → ℚ)
    (docs : List Document) (query : List Char)
    (res : List (List Char × QueryResult)) (t : List Char) (r : QueryResult)
    (h : calculate_tfidf W docs query = Except.ok res)
    (hm : (t, r) ∈ res) (hlen : t.length = 1) (hocc : t ∈ allWords docs) :
    r = QueryResult.notFound := by
  have hnot : t ∉ vocabOf docs := fun hv => by
    have h2 := vocab_min_length hv
    omega
  rw [calculate_tfidf_ok h] at hm
  have hr := (mem_scoreResults hm).2
  rw [hr, if_neg hnot]

/-- Corpus used to witness C9: the single-character token `x` occurs in the
corpus text. -/
def c9docs : List Document := [⟨("x cats").data, []⟩]

/-- Witness for C9: querying `x` against a corpus containing the token `x`
yields `notFound`. -/
theorem C9_witness : QueryResult.notFound = QueryResult.notFound :=
  C9_single_char_not_found (fun _ _ => (1 : ℚ)) c9docs (("x").data)
    (scoreResults (fun _ _ => (1 : ℚ)) c9docs (("x").data))
    (("x").data) QueryResult.notFound
    (by rw [calculate_tfidf, if_neg (by decide)])
    (by decide) (by decide) (by decide)

/-- C10 counterexample: the token-purity invariant fails on the real
lowercasing behavior: the input `İx` normalizes to the single token
`i` + U+0307 + `x`, and U+0307 (COMBINING DOT ABOVE) is neither a letter,
a digit nor an underscore, so not every token character is a word
character. -/
theorem C10_counterexample :
    [Char.ofNat 105, Char.ofNat 775, ('x' : Char)]
        ∈ tokens ([Char.ofNat 304, 'x']) ∧
    isWordChar (Char.ofNat 775) = false ∧
    ¬(∀ c ∈ [Char.ofNat 105, Char.ofNat 775, ('x' : Char)],
        isWordChar c = true) := by decide

/-- C10 amended: every token produced by normalization is non-empty,
contains no whitespace, no uppercase ASCII letter, and is not a stopword;
and on inputs containing no U+0130 (`İ`) every token character is a word
character (letter, digit or underscore).  Inputs containing `İ` can yield
tokens holding the non-word combining mark U+0307
(`C10_counterexample`). -/
theorem C10_token_invariants (s t : List Char) (h : t ∈ tokens s) :
    t ≠ [] ∧
    (∀ c ∈ t, pyWhitespace c = false) ∧
    (∀ c ∈ t, ¬(65 ≤ c.toNat ∧ c.toNat ≤ 90)) ∧
    t ∉ STOPWORDS ∧
    ((∀ c ∈ s, c.toNat ≠ 304) → ∀ c ∈ t, isWordChar c = true) := by
  rw [tokens_eq_cleanWords] at h
  obtain ⟨hne, hstop, hws⟩ := cleanWords_basic s t h
  refine ⟨hne, hws, cleanWords_no_upper s t h, hstop, ?_⟩
  intro h304 c hc
  exact (cleanWords_pure s h304 t h c hc).1

/-- Witness for C10 on the token `cats` of the input `"The CATS!!"`. -/
theorem C10_witness :
    ("cats").data ≠ [] ∧
    (∀ c ∈ ("cats").data, pyWhitespace c = false) ∧
    (∀ c ∈ ("cats").data, ¬(65 ≤ c.toNat ∧ c.toNat ≤ 90)) ∧
    ("cats").data ∉ STOPWORDS ∧
    (∀ c ∈ ("cats").data, isWordChar c = true) :=
  have h := C10_token_invariants (("The CATS!!").data) (("cats").data) (by decide)
  ⟨h.1, h.2.1, h.2.2.1, h.2.2.2.1, h.2.2.2.2 (by decide)⟩

end InfoRec
